import Mathlib

/-!
Verification of the `vite-convert-pug-in-html` plugin (`src/index.ts`).

The development shallowly embeds the plugin's logic:

* paths are strings; the file system is an existence predicate
  `ExistsFn : String → Bool` (the code only calls `fs.existsSync`);
* Node's `path` helpers (`dirname`, `resolve`, `extname`) are implemented
  over `List Char` with structural recursion so concrete inputs evaluate
  inside `decide`/`rfl`;
* Vite's `normalizePath` is the identity (POSIX separators assumed);
* the Pug engine is an uninterpreted collaborator: the token stream its
  lexer hands to the plugin's `lex` hook and the render outcome are fields
  of a `World` record, while everything the plugin itself computes
  (alias resolution, dependency collection, data merging, entry discovery,
  the dev middleware, `resolveId`/`load`) is modelled concretely.
-/

/-- Chars of a string (`String.data`). -/
def chars (s : String) : List Char := s.data

/-- JS `s.startsWith(p)` for literal `p`; also models the regexp
test `^find` built from a literal alias `find` string. -/
def strStartsWith (s p : String) : Bool := (chars p).isPrefixOf (chars s)

/-- JS `s.endsWith(t)`. -/
def strEndsWith (s t : String) : Bool := (chars t).isSuffixOf (chars s)

/-- JS `s.includes(c)` for a single-character needle. -/
def strContains (s : String) (c : Char) : Bool := (chars s).contains c

/-- JS `s.slice(n)` for `n ≥ 0`. -/
def strDrop (s : String) (n : Nat) : String := ⟨(chars s).drop n⟩

/-- JS `s.slice(0, -n)`: drop the last `n` characters (empty when `n`
exceeds the length, as in JS). -/
def strDropRight (s : String) (n : Nat) : String :=
  ⟨(chars s).take ((chars s).length - n)⟩

/-- JS `url.split('?')[0]`: everything before the first `?`. -/
def stripQuery (s : String) : String := ⟨(chars s).takeWhile (fun c => c != '?')⟩

/-- Split a character list on a separator (used for `/`-segments of paths). -/
def splitChar (c : Char) : List Char → List (List Char)
  | [] => [[]]
  | x :: xs =>
    if x = c then [] :: splitChar c xs
    else
      match splitChar c xs with
      | h :: t => (x :: h) :: t
      | [] => [[x]]

/-- Join path segments with `/`. -/
def joinSegs : List String → String
  | [] => ""
  | [s] => s
  | s :: rest => s ++ "/" ++ joinSegs rest

/-- Collapse `.` and `..` segments, as Node's path normalization does. -/
def processDots (segs : List String) : List String :=
  segs.foldl
    (fun acc seg =>
      if seg = "." then acc
      else if seg = ".." then acc.dropLast
      else acc ++ [seg]) []

/-- Node `path.resolve(dir, file)` for the shapes the plugin uses:
an absolute `file` stands alone, otherwise it is joined to `dir`;
the result is segment-normalized. -/
def resolvePath (dir file : String) : String :=
  let path := if strStartsWith file "/" then file else dir ++ "/" ++ file
  let segs := ((splitChar '/' (chars path)).map (fun l => (⟨l⟩ : String))).filter
    (fun s => s ≠ "")
  (if strStartsWith path "/" then "/" else "") ++ joinSegs (processDots segs)

/-- Node `path.dirname`. -/
def dirname (s : String) : String :=
  match (chars s).reverse.dropWhile (fun c => c != '/') with
  | [] => "."
  | [_] => "/"
  | _ :: tail => ⟨tail.reverse⟩

/-- Final `/`-separated segment of a path (its basename). -/
def lastSegment (s : String) : String :=
  ⟨((chars s).reverse.takeWhile (fun c => c != '/')).reverse⟩

/-- Node `path.extname`: the suffix of the basename from its last dot,
empty when the basename has no dot or only a leading dot. -/
def extname (s : String) : String :=
  let rbase := (chars s).reverse.takeWhile (fun c => c != '/')
  let rpre := rbase.takeWhile (fun c => c != '.')
  if rpre.length + 1 < rbase.length then ⟨'.' :: rpre.reverse⟩ else ""

/-- Vite's `normalizePath`; the identity on POSIX-separated paths. -/
def normalizePath (s : String) : String := s

/-- One entry of Vite's `resolve.alias` table (literal `find` pattern). -/
structure Alias where
  find : String
  replacement : String
deriving DecidableEq, Repr

/-- The file system as seen through `fs.existsSync`. -/
abbrev ExistsFn := String → Bool

/-- `filename.replace(^find, replacement)` for a matching literal prefix. -/
def aliasRewrite (a : Alias) (filename : String) : String :=
  a.replacement ++ strDrop filename a.find.length

/-- The `for (const alias of viteAliases)` loop of `pugAliasResolver`:
the first matching rule whose rewritten target exists (verbatim, or with
`.pug` appended) yields a result; otherwise later rules are tried. -/
def aliasLoop (ex : ExistsFn) (filename : String) : List Alias → Option String
  | [] => none
  | a :: rest =>
    if strStartsWith filename a.find then
      if ex (aliasRewrite a filename) then some (aliasRewrite a filename)
      else if ex (aliasRewrite a filename ++ ".pug") then
        some (aliasRewrite a filename ++ ".pug")
      else aliasLoop ex filename rest
    else aliasLoop ex filename rest

/-- `pugAliasResolver(filename, source?)` from `src/index.ts:26-44`. -/
def pugAliasResolver (aliases : List Alias) (ex : ExistsFn)
    (filename : String) (source : Option String) : String :=
  match aliasLoop ex filename aliases with
  | some p => p
  | none =>
    match source with
    | some src =>
      let resolvedPath := resolvePath (dirname src) filename
      if ex resolvedPath then resolvedPath
      else if extname resolvedPath != ".pug" && ex (resolvedPath ++ ".pug") then
        resolvedPath ++ ".pug"
      else filename
    | none => filename

example : resolvePath (dirname "/a/b.pug") "lib/x" = "/a/lib/x" := by decide
example : extname "/about.html" = ".html" := by decide
example : extname "/a/x" = "" := by decide
example : pugAliasResolver [⟨"@", "/www"⟩] (fun s => s == "/www/x") "@/x" none = "/www/x" := by
  decide
example : pugAliasResolver [⟨"@", "/www"⟩] (fun _ => false) "@/x" none = "@/x" := by decide

/-- A JS object with string values, as an association list. -/
abbrev Record := List (String × String)

/-- Property lookup on a JS object. -/
def recordGet (r : Record) (k : String) : Option String :=
  (r.find? (fun p => p.1 == k)).map (fun p => p.2)

/-- JS object spread `\x7b...a, ...b\x7d`: `b`'s entries override `a`'s on
key collision. -/
def jsSpread (a b : Record) : Record :=
  a.filter (fun p => (b.find? (fun q => q.1 == p.1)).isNone) ++ b

/-- Error reported by the Pug engine (`message` and `stack` of the thrown
`Error`). -/
structure RenderError where
  message : String
  stack : String
deriving DecidableEq, Repr

/-- A token of the Pug lexer as seen by the `lex` plugin hook: its `type`
and, when present, `token.file.path`. -/
structure PugToken where
  type : String
  filePath : Option String
deriving DecidableEq, Repr

/-- The options object `renderPug` passes to `pug.render` (`filename`,
`basedir`, `pretty`, the caller's `pugOptions` spread, and the merged
locals spread). -/
structure PugRenderOptions where
  filename : String
  basedir : String
  pretty : Bool
  pugOptions : Record
  data : Record
deriving DecidableEq, Repr

/-- The plugin's closed-over state: resolved root, alias table, the
`locals` and `pugOptions` plugin options, and `htmlToPugMap`. -/
structure PluginEnv where
  root : String
  aliases : List Alias
  locals : Record
  pugOptions : Record
  htmlToPugMap : List (String × String)

/-- The external world: file contents and existence, the token stream the
Pug lexer yields for a template file, the Pug engine's render outcome, and
the dev server's `transformIndexHtml` hook (url, html). -/
structure World where
  fileContents : String → String
  fsExists : ExistsFn
  lexTokens : String → List PugToken
  engineRender : String → PugRenderOptions → Except RenderError String
  transformIndexHtml : String → String → String

/-- The guard of the `lex` hook body: for an `include`/`extends` token
carrying a file path, the alias-resolved dependency path; `none` otherwise. -/
def tokenTarget (aliases : List Alias) (ex : ExistsFn) (filename : String)
    (t : PugToken) : Option String :=
  if t.type == "include" || t.type == "extends" then
    t.filePath.map (fun p => pugAliasResolver aliases ex p (some filename))
  else none

/-- One token step of the `lex` hook: an existing resolved target is added
to the dependency set (normalized, without duplicates). -/
def depStep (aliases : List Alias) (ex : ExistsFn) (filename : String)
    (acc : List String) (t : PugToken) : List String :=
  match tokenTarget aliases ex filename t with
  | some depPath =>
    if ex depPath && !(acc.contains (normalizePath depPath)) then
      acc ++ [normalizePath depPath]
    else acc
  | none => acc

/-- The dependency set accumulated by `dependencyTrackingPlugin.lex` over a
render's token stream, starting from the fresh empty set created in
`renderPug` (`src/index.ts:47-64`). -/
def collectDeps (aliases : List Alias) (ex : ExistsFn) (filename : String)
    (tokens : List PugToken) : List String :=
  tokens.foldl (depStep aliases ex filename) []

/-- The distinct-free list of resolved `include`/`extends` targets that
exist, normalized — the specification's "valid targets" of a render. -/
def validTargets (aliases : List Alias) (ex : ExistsFn) (filename : String)
    (tokens : List PugToken) : List String :=
  (((tokens.filterMap (tokenTarget aliases ex filename)).filter
    (fun d => ex d)).map normalizePath)

/-- `renderPug(filename, data)` from `src/index.ts:46-78`: read the source,
merge `options.locals` under the per-call `data`, run the engine with the
alias resolver and dependency tracker installed, and return the markup with
the accumulated dependency set. -/
def renderPug (env : PluginEnv) (w : World) (filename : String)
    (data : Record) : Except RenderError (String × List String) :=
  let deps := collectDeps env.aliases w.fsExists filename (w.lexTokens filename)
  let source := w.fileContents filename
  let renderData := jsSpread env.locals data
  match w.engineRender source
      { filename := filename, basedir := env.root, pretty := true,
        pugOptions := env.pugOptions, data := renderData } with
  | Except.ok html => Except.ok (html, deps)
  | Except.error e => Except.error e

/-- `path.relative(root, p)` for a path below `root`, the shape produced by
the glob in the `config` hook. -/
def relativeTo (root p : String) : String :=
  if strStartsWith p (root ++ "/") then strDrop p (root.length + 1) else p

/-- Whether an absolute file path is matched by the glob
`$\x7broot\x7d/pages/**/*.pug` with ignore pattern `$\x7broot\x7d/**/_*.pug`. -/
def globPageFile (root f : String) : Bool :=
  strStartsWith f (root ++ "/pages/") && strEndsWith f ".pug" &&
    !(strStartsWith (lastSegment f) "_")

/-- The files the `config` hook processes: the glob results over `pages/`,
then the root `index.pug` when it exists (`src/index.ts:86-96`). -/
def discoveredFiles (root : String) (fsFiles : List String) : List String :=
  fsFiles.filter (globPageFile root) ++
    (if fsFiles.contains (resolvePath root "index.pug") then
      [resolvePath root "index.pug"] else [])

/-- Output-key derivation of the `config` hook (`src/index.ts:100-113`):
strip `.pug`, strip a leading `pages/`, and append `/index` unless the key
is `index` or already ends in `/index`. -/
def deriveEntryKey (root pugPath : String) : String :=
  let k0 := strDropRight (normalizePath (relativeTo root (normalizePath pugPath))) 4
  let k1 := if strStartsWith k0 "pages/" then strDrop k0 6 else k0
  if k1 != "index" && !(strEndsWith k1 "/index") then k1 ++ "/index" else k1

/-- The virtual HTML path registered for a discovered template
(`src/index.ts:115`). -/
def virtualHtmlOf (root pugPath : String) : String :=
  normalizePath (resolvePath root (deriveEntryKey root pugPath ++ ".html"))

/-- JS `Map.set` / object-property assignment: update the first entry with
the key in place, or append a fresh entry. -/
def mapSet : List (String × String) → String → String → List (String × String)
  | [], k, v => [(k, v)]
  | (k', v') :: rest, k, v =>
    if k' == k then (k, v) :: rest else (k', v') :: mapSet rest k v

/-- JS `Map.get` (and object-property read): first entry with the key. -/
def mapGet : List (String × String) → String → Option String
  | [], _ => none
  | (k', v') :: rest, k => if k' == k then some v' else mapGet rest k

/-- The body of the `config` hook's discovery loop (`src/index.ts:100-118`):
record `rollupInput[entryKey]` and `htmlToPugMap.set(virtualHtmlPath, pugPath)`. -/
def buildStep (root : String)
    (acc : (List (String × String)) × (List (String × String)))
    (pugPath : String) : (List (String × String)) × (List (String × String)) :=
  (mapSet acc.1 (deriveEntryKey root pugPath) (virtualHtmlOf root pugPath),
   mapSet acc.2 (virtualHtmlOf root pugPath) (normalizePath pugPath))

/-- The `config` hook (`src/index.ts:84-127`): discovery plus the loop,
returning `(rollupInput, htmlToPugMap)`. -/
def configHook (root : String) (fsFiles : List String) :
    (List (String × String)) × (List (String × String)) :=
  (discoveredFiles root fsFiles).foldl (buildStep root) ([], [])

example :
    (configHook "/proj" ["/proj/index.pug", "/proj/pages/about.pug"]).2 =
      [("/proj/about/index.html", "/proj/pages/about.pug"),
       ("/proj/index.html", "/proj/index.pug")] := by decide

/-- The `resolveId` hook (`src/index.ts:134-139`). -/
def pluginResolveId (env : PluginEnv) (id : String) : Option String :=
  if (mapGet env.htmlToPugMap (normalizePath id)).isSome then
    some (normalizePath id)
  else none

/-- Outcome of the `load` hook: rendered markup together with the watch
files registered via `addWatchFile`, a `null` return, or a raised error
(`this.error`). -/
inductive LoadResult where
  | loaded (html : String) (watched : List String)
  | nullResult
  | errorRaised (e : RenderError)
deriving DecidableEq, Repr

/-- The `load` hook (`src/index.ts:141-155`). -/
def pluginLoad (env : PluginEnv) (w : World) (id : String) : LoadResult :=
  match mapGet env.htmlToPugMap (normalizePath id) with
  | some pugPath =>
    if w.fsExists pugPath then
      match renderPug env w pugPath [] with
      | Except.ok (html, deps) => LoadResult.loaded html deps
      | Except.error e => LoadResult.errorRaised e
    else LoadResult.nullResult
  | none => LoadResult.nullResult

/-- A message on the live-reload channel (`server.ws.send`). -/
structure WsMessage where
  type : String
  path : String
deriving DecidableEq, Repr

/-- What the dev middleware does with one request: call `next()` with no
arguments, call `next(error)`, or write a response. -/
inductive MwResult where
  | passThrough
  | passThroughError (e : RenderError)
  | respond (status : Nat) (contentType : String) (body : String)
deriving DecidableEq, Repr

/-- Observable outcome of one middleware invocation: the HTTP-side result,
the messages pushed over the live-reload channel, and the files added to
the server watcher. -/
structure MwOutcome where
  result : MwResult
  wsSent : List WsMessage
  watcherAdded : List String
deriving DecidableEq, Repr

/-- The request path of a request: `req.url || '/'` with the query string
stripped (`src/index.ts:159-160`). -/
def requestPathOf (rawUrl : String) : String :=
  stripQuery (if rawUrl == "" then "/" else rawUrl)

/-- The dev-server middleware installed by `configureServer`
(`src/index.ts:158-197`). -/
def devMiddleware (env : PluginEnv) (w : World) (rawUrl : String) : MwOutcome :=
  let url := if rawUrl == "" then "/" else rawUrl
  let requestPath := stripQuery url
  if strContains requestPath '.' && !(strEndsWith requestPath ".html") then
    { result := MwResult.passThrough, wsSent := [], watcherAdded := [] }
  else
    let cleanPath0 := strDrop requestPath 1
    let cleanPath :=
      if cleanPath0 == "" || strEndsWith requestPath "/" then
        (if cleanPath0 != "" then cleanPath0 ++ "index.html" else "index.html")
      else cleanPath0
    let potentialHtmlPath := resolvePath env.root
      (if strEndsWith cleanPath ".html" then cleanPath else cleanPath ++ "/index.html")
    let pugPath0 := mapGet env.htmlToPugMap (normalizePath potentialHtmlPath)
    let pugPath :=
      if pugPath0.isNone && !(strEndsWith cleanPath ".html") then
        mapGet env.htmlToPugMap
          (normalizePath (resolvePath env.root (cleanPath ++ ".html")))
      else pugPath0
    match pugPath with
    | none => { result := MwResult.passThrough, wsSent := [], watcherAdded := [] }
    | some p =>
      match renderPug env w p [] with
      | Except.ok (html, deps) =>
        { result := MwResult.respond 200 "text/html" (w.transformIndexHtml url html),
          wsSent := [], watcherAdded := deps }
      | Except.error e =>
        { result := MwResult.passThroughError e, wsSent := [], watcherAdded := [] }

/-- The `handleHotUpdate` hook (`src/index.ts:200-210`): a full-reload
broadcast for `.pug` changes, nothing otherwise. -/
def hotUpdate (file : String) : List WsMessage :=
  if strEndsWith file ".pug" then [{ type := "full-reload", path := "*" }] else []

/-- Project for claims C2/C3: root template `index.pug` and page template
`pages/about.pug`, with the virtual-document map built by the `config` hook. -/
def c3Env : PluginEnv :=
  { root := "/proj", aliases := [], locals := [], pugOptions := [],
    htmlToPugMap := (configHook "/proj" ["/proj/index.pug", "/proj/pages/about.pug"]).2 }

/-- World for claim C3: both templates exist and render successfully; the
host's transform hook appends a marker. -/
def c3World : World :=
  { fileContents := fun f =>
      if f == "/proj/index.pug" then "IDX"
      else if f == "/proj/pages/about.pug" then "ABT" else "",
    fsExists := fun f => f == "/proj/index.pug" || f == "/proj/pages/about.pug",
    lexTokens := fun _ => [],
    engineRender := fun src _ => Except.ok ("R-" ++ src),
    transformIndexHtml := fun _ html => html ++ "-T" }

/-- C3: with the map built from `index.pug` and `pages/about.pug`, the dev
middleware serves `/` from the root template and `/about` from
`pages/about.pug`, each with status 200 and content type `text/html` after
the host transform — but `/about.html` is passed through untouched instead
of being mapped to `pages/about.pug`, because the map key is
`about/index.html` and the re-derivation branch is skipped for paths
already ending in `.html`. This contradicts the claim (and the repository's
own test) for the `/about.html` case. -/
theorem c3_theorem :
    devMiddleware c3Env c3World "/" =
      { result := MwResult.respond 200 "text/html" "R-IDX-T",
        wsSent := [], watcherAdded := [] } ∧
    devMiddleware c3Env c3World "/about" =
      { result := MwResult.respond 200 "text/html" "R-ABT-T",
        wsSent := [], watcherAdded := [] } ∧
    devMiddleware c3Env c3World "/about.html" =
      { result := MwResult.passThrough, wsSent := [], watcherAdded := [] } := by
  refine ⟨by decide, by decide, by decide⟩

/-- World for claim C2: the matched template's render fails with an engine
error. -/
def c2World : World :=
  { fileContents := fun _ => "BROKEN",
    fsExists := fun f => f == "/proj/pages/about.pug" || f == "/proj/index.pug",
    lexTokens := fun _ => [],
    engineRender := fun _ _ => Except.error { message := "Unexpected token", stack := "trace" },
    transformIndexHtml := fun _ html => html }

/-- C2: when the matched template fails to render, the middleware forwards
the error object to the next handler and writes no response body — but it
sends nothing on the live-reload channel and logs nothing: the `catch`
block at `src/index.ts:194-196` is only `next(e)`. The repository's own
test (`test/index.spec.ts`, "should handle rendering errors and send to
websocket") asserts a `ws.send` with `type: "error"`, so the code
contradicts its tests and the claim's required notification is missing. -/
theorem c2_theorem :
    devMiddleware c3Env c2World "/about" =
      { result := MwResult.passThroughError { message := "Unexpected token", stack := "trace" },
        wsSent := [], watcherAdded := [] } ∧
    (devMiddleware c3Env c2World "/about").wsSent = [] := by
  refine ⟨by decide, by decide⟩

/-- File listing for claim C6: a root with `index.pug`, `pages/about.pug`,
`pages/contact/index.pug`, and an underscore-marked file. -/
def c6Files : List String :=
  ["/proj/index.pug", "/proj/pages/about.pug", "/proj/pages/contact/index.pug",
   "/proj/pages/_secret.pug"]

/-- C6: entry discovery over `index.pug`, `pages/about.pug` and
`pages/contact/index.pug` derives exactly the output keys `about/index`,
`contact/index` and `index` (no double `index` suffix for `contact`), maps
each virtual HTML path to its source template, and excludes the
underscore-marked file `pages/_secret.pug`. -/
theorem c6_theorem :
    ((configHook "/proj" c6Files).1).map Prod.fst =
      ["about/index", "contact/index", "index"] ∧
    (configHook "/proj" c6Files).2 =
      [("/proj/about/index.html", "/proj/pages/about.pug"),
       ("/proj/contact/index.html", "/proj/pages/contact/index.pug"),
       ("/proj/index.html", "/proj/index.pug")] ∧
    discoveredFiles "/proj" c6Files =
      ["/proj/pages/about.pug", "/proj/pages/contact/index.pug", "/proj/index.pug"] := by
  refine ⟨by decide, by decide, by decide⟩

/-- The alias loop skips every matching rule whose rewritten target does
not exist, and stops at the first matching rule whose rewritten target
exists verbatim. -/
lemma aliasLoop_first_exists (ex : ExistsFn) (filename : String)
    (pre post : List Alias) (a : Alias)
    (hpre : ∀ b ∈ pre, strStartsWith filename b.find = true →
      ex (aliasRewrite b filename) = false ∧ ex (aliasRewrite b filename ++ ".pug") = false)
    (hmatch : strStartsWith filename a.find = true)
    (hex : ex (aliasRewrite a filename) = true) :
    aliasLoop ex filename (pre ++ a :: post) = some (aliasRewrite a filename) := by
  induction pre with
  | nil => simp [aliasLoop, hmatch, hex]
  | cons b rest ih =>
    have hb := hpre b (by simp)
    by_cases h : strStartsWith filename b.find = true
    · have hb1 := (hb h).1
      have hb2 := (hb h).2
      simp only [List.cons_append, aliasLoop, h, if_true, hb1, hb2, if_false]
      exact ih (fun c hc hm => hpre c (by simp [hc]) hm)
    · simp only [List.cons_append, aliasLoop, eq_false_of_ne_true h, if_false]
      exact ih (fun c hc hm => hpre c (by simp [hc]) hm)

/-- When no alias rule's pattern matches the reference, the alias loop
contributes nothing. -/
lemma aliasLoop_none (ex : ExistsFn) (filename : String) (aliases : List Alias)
    (hnone : ∀ a ∈ aliases, strStartsWith filename a.find = false) :
    aliasLoop ex filename aliases = none := by
  induction aliases with
  | nil => rfl
  | cons a rest ih =>
    have ha := hnone a (by simp)
    simp only [aliasLoop, ha, if_false]
    exact ih (fun c hc => hnone c (by simp [hc]))

/-- C1 counterexample: first-match-wins is not unconditional. With the
single rule `@ → /www` and an empty disk, resolving `@/x` returns the raw
reference `@/x`, not the rewritten `/www/x`; and with two matching rules
`@ → /a`, `@ → /b` where only `/b/x` exists, the second (later) rule is
applied even though the first rule matched. -/
theorem c1_counterexample :
    (pugAliasResolver [⟨"@", "/www"⟩] (fun _ => false) "@/x" none = "@/x" ∧
      aliasRewrite ⟨"@", "/www"⟩ "@/x" = "/www/x" ∧ ("@/x" : String) ≠ "/www/x") ∧
    (pugAliasResolver [⟨"@", "/a"⟩, ⟨"@", "/b"⟩] (fun s => s == "/b/x") "@/x" none = "/b/x" ∧
      ("/b/x" : String) ≠ aliasRewrite ⟨"@", "/a"⟩ "@/x") := by
  refine ⟨⟨by decide, by decide, by decide⟩, by decide, by decide⟩

/-- C1, amended: if rule `a` is the first rule whose pattern matches a
prefix of the reference *and whose rewritten target exists on disk*, the
resolver's output is the reference with the matched prefix replaced by the
rule's replacement, and no later rule is applied. (The code makes
first-match-wins conditional on existence: a matching rule whose rewritten
target is missing, verbatim and with `.pug` appended, is skipped.) -/
theorem c1_theorem (pre post : List Alias) (a : Alias) (ex : ExistsFn)
    (filename : String) (source : Option String)
    (hpre : ∀ b ∈ pre, strStartsWith filename b.find = true →
      ex (aliasRewrite b filename) = false ∧ ex (aliasRewrite b filename ++ ".pug") = false)
    (hmatch : strStartsWith filename a.find = true)
    (hex : ex (aliasRewrite a filename) = true) :
    pugAliasResolver (pre ++ a :: post) ex filename source = aliasRewrite a filename := by
  simp [pugAliasResolver, aliasLoop_first_exists ex filename pre post a hpre hmatch hex]

/-- Disk contents for the C1 witness: the rewritten targets of the second
and third rules exist, the first rule's does not. -/
def c1Ex : ExistsFn := fun s => s == "/www/x" || s == "/late/x"

/-- Rule before the winning rule in the C1 witness (missing target). -/
def c1Pre : List Alias := [⟨"@", "/dead"⟩]

/-- Rule after the winning rule in the C1 witness (existing target,
never reached). -/
def c1Post : List Alias := [⟨"@", "/late"⟩]

/-- The winning rule of the C1 witness. -/
def c1Rule : Alias := ⟨"@", "/www"⟩

/-- C1 witness: with rules `@ → /dead`, `@ → /www`, `@ → /late`, where the
first rule's target is missing and both later targets exist, resolving
`@/x` yields `/www/x` — the first matching rule with an existing target,
with the rule after it ignored. -/
theorem c1_witness :
    pugAliasResolver (c1Pre ++ c1Rule :: c1Post) c1Ex "@/x" none = "/www/x" :=
  (c1_theorem c1Pre c1Post c1Rule c1Ex "@/x" none
    (by decide) (by decide) (by decide)).trans (by decide)

/-- C4 counterexample: for a reference matching no alias rule whose
relative candidate does not exist (with or without `.pug`), the resolver
returns the original reference `lib/x`, not the unresolved candidate
`/a/lib/x` that the claim requires. -/
theorem c4_counterexample :
    pugAliasResolver [] (fun _ => false) "lib/x" (some "/a/b.pug") = "lib/x" ∧
    resolvePath (dirname "/a/b.pug") "lib/x" = "/a/lib/x" ∧
    ("lib/x" : String) ≠ "/a/lib/x" := by
  refine ⟨by decide, by decide, by decide⟩

/-- C4, amended: for a reference matching no alias rule, the resolver
resolves it against the directory of the referencing document; the
candidate is returned verbatim if it exists, the candidate with `.pug`
appended is returned if the candidate lacks that extension and the
extended path exists, and otherwise the *original reference* is returned
unchanged (not the unresolved candidate). The resolver is a total
function: it never raises. -/
theorem c4_theorem (aliases : List Alias) (ex : ExistsFn) (ref src : String)
    (hnone : ∀ a ∈ aliases, strStartsWith ref a.find = false) :
    pugAliasResolver aliases ex ref (some src) =
      (if ex (resolvePath (dirname src) ref) then resolvePath (dirname src) ref
       else if extname (resolvePath (dirname src) ref) != ".pug" &&
           ex (resolvePath (dirname src) ref ++ ".pug") then
         resolvePath (dirname src) ref ++ ".pug"
       else ref) := by
  simp [pugAliasResolver, aliasLoop_none ex ref aliases hnone]

/-- Disk contents for the C4 witness: only the `.pug`-extended candidate
exists. -/
def c4Ex : ExistsFn := fun s => s == "/a/lib/x.pug"

/-- Alias table of the C4 witness: one rule that does not match the
reference. -/
def c4Rules : List Alias := [⟨"~", "/www"⟩]

/-- C4 witness: with rule `~ → /www` (not matching `lib/x`) and only
`/a/lib/x.pug` on disk, resolving `lib/x` from `/a/b.pug` returns the
extension-appended candidate `/a/lib/x.pug`. -/
theorem c4_witness :
    pugAliasResolver c4Rules c4Ex "lib/x" (some "/a/b.pug") = "/a/lib/x.pug" :=
  (c4_theorem c4Rules c4Ex "lib/x" "/a/b.pug" (by decide)).trans (by decide)

/-- C10: for a module id whose normalized form is not a key of the
virtual-document map, both `resolveId` and `load` return `null`; and for a
mapped id whose source template no longer exists on disk at load time,
`load` also returns `null` without raising. -/
theorem c10_theorem (env : PluginEnv) (w : World) (id : String) :
    (mapGet env.htmlToPugMap (normalizePath id) = none →
      pluginResolveId env id = none ∧ pluginLoad env w id = LoadResult.nullResult) ∧
    (∀ p, mapGet env.htmlToPugMap (normalizePath id) = some p →
      w.fsExists p = false → pluginLoad env w id = LoadResult.nullResult) := by
  constructor
  · intro h
    constructor
    · simp [pluginResolveId, h]
    · simp [pluginLoad, h]
  · intro p hp hex
    simp [pluginLoad, hp, hex]

/-- Plugin state for the C10 witness: the map holds a single virtual
document `/proj/index.html`. -/
def c10Env : PluginEnv :=
  { root := "/proj", aliases := [], locals := [], pugOptions := [],
    htmlToPugMap := [("/proj/index.html", "/proj/index.pug")] }

/-- World for the C10 witness: no file exists on disk. -/
def c10World : World :=
  { fileContents := fun _ => "", fsExists := fun _ => false,
    lexTokens := fun _ => [],
    engineRender := fun src _ => Except.ok src,
    transformIndexHtml := fun _ html => html }

/-- C10 witness: an unmapped id gets `null` from both hooks, and the mapped
id whose template is gone from disk gets `null` from `load`. -/
theorem c10_witness :
    pluginResolveId c10Env "/zzz.html" = none ∧
    pluginLoad c10Env c10World "/zzz.html" = LoadResult.nullResult ∧
    pluginLoad c10Env c10World "/proj/index.html" = LoadResult.nullResult :=
  ⟨((c10_theorem c10Env c10World "/zzz.html").1 (by decide)).1,
   ((c10_theorem c10Env c10World "/zzz.html").1 (by decide)).2,
   (c10_theorem c10Env c10World "/proj/index.html").2 "/proj/index.pug"
     (by decide) (by decide)⟩

/-- Filtering by a predicate implied by the search predicate does not
change the result of `find?`. -/
lemma find?_filter_eq {α : Type} (l : List α) (p f : α → Bool)
    (h : ∀ x, p x = true → f x = true) : (l.filter f).find? p = l.find? p := by
  induction l with
  | nil => rfl
  | cons x t ih =>
    by_cases hf : f x = true
    · rw [List.filter_cons_of_pos hf]
      by_cases hp : p x = true
      · rw [List.find?_cons_of_pos t hp, List.find?_cons_of_pos _ hp]
      · rw [List.find?_cons_of_neg t (by simp [hp]), List.find?_cons_of_neg _ (by simp [hp]), ih]
    · have hp : ¬ p x = true := fun hpx => hf (h x hpx)
      rw [List.filter_cons_of_neg (by simp [hf]), List.find?_cons_of_neg t (by simp [hp]), ih]

/-- Property lookup on a JS spread: the later object's binding wins on key
collision, the earlier object's binding is used otherwise. -/
lemma recordGet_jsSpread (a b : Record) (k : String) :
    recordGet (jsSpread a b) k =
      match recordGet b k with
      | some v => some v
      | none => recordGet a k := by
  unfold recordGet jsSpread
  rw [List.find?_append]
  cases hb : b.find? (fun q => q.1 == k) with
  | some q =>
    have hnone : (a.filter (fun p => (b.find? (fun q => q.1 == p.1)).isNone)).find?
        (fun p => p.1 == k) = none := by
      rw [List.find?_eq_none]
      intro x hx hpx
      have hx1 : x.1 = k := by simpa using hpx
      have hfx := List.of_mem_filter hx
      rw [hx1, hb] at hfx
      simp at hfx
    rw [hnone]
    simp
  | none =>
    have hfind : (a.filter (fun p => (b.find? (fun q => q.1 == p.1)).isNone)).find?
        (fun p => p.1 == k) = a.find? (fun p => p.1 == k) := by
      apply find?_filter_eq
      intro x hpx
      have hx1 : x.1 = k := by simpa using hpx
      rw [hx1, hb]
      rfl
    rw [hfind]
    cases a.find? (fun p => p.1 == k) <;> simp

/-- C9: rendering is deterministic — two `renderPug` calls with the same
template path and per-call data, against worlds that agree on file
contents, file existence, the lexer's token stream and the engine's render
function (i.e. no underlying file change), produce identical results —
and the data record handed to the engine is the configured `locals`
overridden on key collision by the caller-supplied per-call data. -/
theorem c9_theorem (env : PluginEnv) (w w' : World) (f : String) (d : Record)
    (h1 : w.fileContents = w'.fileContents) (h2 : w.fsExists = w'.fsExists)
    (h3 : w.lexTokens = w'.lexTokens) (h4 : w.engineRender = w'.engineRender) :
    renderPug env w f d = renderPug env w' f d ∧
    ∀ k, recordGet (jsSpread env.locals d) k =
      match recordGet d k with
      | some v => some v
      | none => recordGet env.locals k := by
  constructor
  · simp only [renderPug]
    rw [h1, h2, h3, h4]
  · intro k
    exact recordGet_jsSpread env.locals d k

/-- Plugin state for the C9 witness: `locals` holds two default bindings. -/
def c9Env : PluginEnv :=
  { root := "/proj", aliases := [], locals := [("title", "Default"), ("lang", "en")],
    pugOptions := [], htmlToPugMap := [] }

/-- Shared file contents of the two C9 worlds. -/
def c9Files : String → String := fun _ => "SRC"

/-- Shared (empty) disk of the two C9 worlds. -/
def c9Ex : ExistsFn := fun _ => false

/-- Shared token stream of the two C9 worlds. -/
def c9Lex : String → List PugToken := fun _ => []

/-- Shared engine of the two C9 worlds. -/
def c9Engine : String → PugRenderOptions → Except RenderError String :=
  fun src _ => Except.ok src

/-- First C9 world. -/
def c9World : World :=
  { fileContents := c9Files, fsExists := c9Ex, lexTokens := c9Lex,
    engineRender := c9Engine, transformIndexHtml := fun _ html => html }

/-- Second C9 world: identical template-relevant state, different
dev-server transform hook. -/
def c9World' : World :=
  { fileContents := c9Files, fsExists := c9Ex, lexTokens := c9Lex,
    engineRender := c9Engine, transformIndexHtml := fun _ html => html ++ "X" }

/-- C9 witness: the two renders agree byte for byte, and the caller's
`title` overrides the configured default for the engine's data. -/
theorem c9_witness :
    renderPug c9Env c9World "/proj/index.pug" [("title", "Override")] =
      renderPug c9Env c9World' "/proj/index.pug" [("title", "Override")] ∧
    recordGet (jsSpread c9Env.locals [("title", "Override")]) "title" =
      (match recordGet [("title", "Override")] "title" with
       | some v => some v
       | none => recordGet c9Env.locals "title") :=
  ⟨(c9_theorem c9Env c9World c9World' "/proj/index.pug" [("title", "Override")]
      rfl rfl rfl rfl).1,
   (c9_theorem c9Env c9World c9World' "/proj/index.pug" [("title", "Override")]
      rfl rfl rfl rfl).2 "title"⟩

/-- Reading a key after a JS `Map.set`: the written value for that key,
the previous map's answer for any other key. -/
lemma mapGet_mapSet (m : List (String × String)) (k v q : String) :
    mapGet (mapSet m k v) q = if k = q then some v else mapGet m q := by
  induction m with
  | nil => simp [mapSet, mapGet]
  | cons e rest ih =>
    obtain ⟨k', v'⟩ := e
    by_cases hk : k' = k
    · subst hk
      by_cases hq : k' = q <;> simp [mapSet, mapGet, hq]
    · by_cases hq : k' = q
      · subst hq
        have hkq : ¬ k = k' := fun h => hk h.symm
        simp [mapSet, mapGet, hk, hkq]
      · simp [mapSet, mapGet, hk, hq, ih]

/-- The last element of a list satisfying a predicate, scanning left to
right with later hits replacing earlier ones — the overwrite order of the
discovery loop. -/
def lastWith (p : String → Bool) : List String → Option String
  | [] => none
  | x :: xs =>
    match lastWith p xs with
    | some y => some y
    | none => if p x then some x else none

/-- `lastWith` is the last element of the filtered list. -/
lemma lastWith_eq_getLast? (p : String → Bool) (l : List String) :
    lastWith p l = (l.filter p).getLast? := by
  induction l with
  | nil => rfl
  | cons x xs ih =>
    simp only [lastWith, ih]
    by_cases hp : p x = true
    · rw [List.filter_cons_of_pos hp]
      cases hxs : (xs.filter p).getLast? with
      | some y =>
        cases hfp : xs.filter p with
        | nil => rw [hfp] at hxs; simp at hxs
        | cons z zs =>
          rw [hfp] at hxs
          simp [List.getLast?_cons_cons, hxs]
      | none =>
        have : xs.filter p = [] := List.getLast?_eq_none_iff.mp hxs
        rw [this]
        simp [hp]
    · rw [List.filter_cons_of_neg (by simp [hp])]
      cases (xs.filter p).getLast? <;> simp [hp]

/-- The discovery loop from any starting accumulator: the
virtual-document map answers with the (normalized) last processed entry
whose virtual HTML path is the queried key, falling back to the
accumulator. -/
lemma buildFold (root vp : String) (entries : List String) :
    ∀ acc, mapGet ((entries.foldl (buildStep root) acc).2) vp =
      match lastWith (fun f => virtualHtmlOf root f == vp) entries with
      | some f => some (normalizePath f)
      | none => mapGet acc.2 vp := by
  induction entries with
  | nil => intro acc; rfl
  | cons e es ih =>
    intro acc
    rw [List.foldl_cons, ih]
    cases hl : lastWith (fun f => virtualHtmlOf root f == vp) es with
    | some f => simp [lastWith, hl]
    | none =>
      simp only [lastWith, hl]
      by_cases he : virtualHtmlOf root e = vp
      · simp [buildStep, mapGet_mapSet, he]
      · have heb : (virtualHtmlOf root e == vp) = false := by simpa using he
        simp [buildStep, mapGet_mapSet, he, heb]

/-- C8: duplicate output keys are resolved by silent overwrite. For every
queried virtual path, the map built by the `config` hook holds exactly the
source path of the last discovered entry whose derived virtual HTML path
is that key (`none` when no entry produces it); the hook is a total
function that raises no error or warning on collision. -/
theorem c8_theorem (root : String) (fsFiles : List String) (vp : String) :
    mapGet (configHook root fsFiles).2 vp =
      (lastWith (fun f => virtualHtmlOf root f == vp)
        (discoveredFiles root fsFiles)).map (fun f => normalizePath f) ∧
    lastWith (fun f => virtualHtmlOf root f == vp) (discoveredFiles root fsFiles) =
      ((discoveredFiles root fsFiles).filter
        (fun f => virtualHtmlOf root f == vp)).getLast? := by
  constructor
  · have h := buildFold root vp (discoveredFiles root fsFiles) ([], [])
    rw [configHook, h]
    cases lastWith (fun f => virtualHtmlOf root f == vp) (discoveredFiles root fsFiles) <;>
      simp [mapGet]
  · exact lastWith_eq_getLast? _ _

/-- C8 illustration: `pages/about.pug` and `pages/about/index.pug` both
derive the key `about/index`; the later entry silently overwrites the
earlier mapping. -/
example :
    mapGet (configHook "/proj"
      ["/proj/pages/about.pug", "/proj/pages/about/index.pug"]).2
      "/proj/about/index.html" = some "/proj/pages/about/index.pug" := by decide

/-- The request path names a document with a file extension other than
`.html`: its final segment has a non-empty extension different from the
markup document extension. -/
def hasNonHtmlExtension (p : String) : Bool :=
  extname p != "" && extname p != ".html"

/-- A path with a non-empty extension contains a dot. -/
lemma contains_dot_of_extname_ne (p : String) (h : extname p ≠ "") :
    strContains p '.' = true := by
  by_contra hc
  apply h
  have hmem : '.' ∉ chars p := by
    intro hin
    exact hc (by simp [strContains, List.contains, hin])
  have hall : ∀ x ∈ (chars p).reverse.takeWhile (fun c => c != '/'), (x != '.') = true := by
    intro x hx
    have hx1 : x ∈ chars p := by
      have := (List.takeWhile_sublist (l := (chars p).reverse)
        (fun c => c != '/')).mem hx
      simpa using this
    simpa using fun he : x = '.' => hmem (he ▸ hx1)
  have heq := List.takeWhile_eq_self_iff.mpr hall
  simp only [extname]
  rw [heq, if_neg (by omega)]

/-- A path whose extension is neither empty nor `.html` does not end in
`.html`. -/
lemma not_endsWith_html_of_extname (p : String) (h1 : extname p ≠ "")
    (h2 : extname p ≠ ".html") : strEndsWith p ".html" = false := by
  rw [Bool.eq_false_iff]
  intro hend
  have hsuf : chars ".html" <:+ chars p := by
    simpa [strEndsWith] using hend
  obtain ⟨t, ht⟩ := hsuf
  have hrev : (chars p).reverse = 'l' :: 'm' :: 't' :: 'h' :: '.' :: t.reverse := by
    rw [← ht, List.reverse_append]
    rfl
  have hA : List.takeWhile (fun c => c != '/') ('l' :: 'm' :: 't' :: 'h' :: '.' :: t.reverse)
      = 'l' :: 'm' :: 't' :: 'h' :: '.' :: List.takeWhile (fun c => c != '/') t.reverse := by
    rw [show ('l' :: 'm' :: 't' :: 'h' :: '.' :: t.reverse)
        = ['l', 'm', 't', 'h', '.'] ++ t.reverse from rfl,
      List.takeWhile_append_of_pos (by decide)]
    rfl
  have hB : List.takeWhile (fun c => c != '.')
      ('l' :: 'm' :: 't' :: 'h' :: '.' :: List.takeWhile (fun c => c != '/') t.reverse)
      = ['l', 'm', 't', 'h'] := by
    rw [show ('l' :: 'm' :: 't' :: 'h' :: '.' :: List.takeWhile (fun c => c != '/') t.reverse)
        = ['l', 'm', 't', 'h'] ++ ('.' :: List.takeWhile (fun c => c != '/') t.reverse) from rfl,
      List.takeWhile_append_of_pos (by decide), List.takeWhile_cons, if_neg (by decide),
      List.append_nil]
  have hext : extname p = "" ∨ extname p = ".html" := by
    simp only [extname]
    rw [hrev, hA, hB]
    simp only [List.length_cons, List.length_nil]
    by_cases hk : (List.takeWhile (fun c => c != '/') t.reverse).length = 0
    · left
      rw [if_neg (by omega)]
    · right
      rw [if_pos (by omega)]
      decide
  cases hext with
  | inl he => exact h1 he
  | inr he => exact h2 he

/-- C5: a request whose path (query string stripped) has a final segment
with a non-empty file extension other than `.html` is passed through
untouched — the middleware calls `next()` before any lookup, sends nothing
on the live-reload channel, adds no watch files, and writes no response. -/
theorem c5_theorem (env : PluginEnv) (w : World) (rawUrl : String)
    (h : hasNonHtmlExtension (requestPathOf rawUrl) = true) :
    devMiddleware env w rawUrl =
      { result := MwResult.passThrough, wsSent := [], watcherAdded := [] } := by
  have hne : extname (requestPathOf rawUrl) ≠ "" ∧
      extname (requestPathOf rawUrl) ≠ ".html" := by
    simpa [hasNonHtmlExtension] using h
  have hA := contains_dot_of_extname_ne _ hne.1
  have hB := not_endsWith_html_of_extname _ hne.1 hne.2
  simp [devMiddleware, requestPathOf, stripQuery] at hA hB ⊢
  simp [hA, hB]

/-- C5 witness: `/style.css` has the non-`.html` extension `.css` and is
passed through untouched. -/
theorem c5_witness :
    hasNonHtmlExtension (requestPathOf "/style.css") = true ∧
    devMiddleware c10Env c10World "/style.css" =
      { result := MwResult.passThrough, wsSent := [], watcherAdded := [] } :=
  ⟨by decide, c5_theorem c10Env c10World "/style.css" (by decide)⟩

/-- Unfolding of the valid-target list over a leading token. -/
lemma validTargets_cons (A : List Alias) (ex : ExistsFn) (fn : String)
    (t : PugToken) (ts : List PugToken) :
    validTargets A ex fn (t :: ts) =
      match tokenTarget A ex fn t with
      | some dp =>
        if ex dp then normalizePath dp :: validTargets A ex fn ts
        else validTargets A ex fn ts
      | none => validTargets A ex fn ts := by
  simp only [validTargets, List.filterMap_cons]
  cases tokenTarget A ex fn t with
  | none => rfl
  | some dp =>
    by_cases hex : ex dp = true
    · rw [List.filter_cons_of_pos hex, List.map_cons]
      simp [hex]
    · rw [List.filter_cons_of_neg (by simp [hex])]
      simp [hex]

/-- Membership in the dependency fold: exactly the starting accumulator
plus the valid targets of the processed tokens. -/
lemma collectFold_mem (A : List Alias) (ex : ExistsFn) (fn : String) :
    ∀ (ts : List PugToken) (acc : List String) (d : String),
      d ∈ ts.foldl (depStep A ex fn) acc ↔ d ∈ acc ∨ d ∈ validTargets A ex fn ts := by
  intro ts
  induction ts with
  | nil => intro acc d; simp [validTargets]
  | cons t ts ih =>
    intro acc d
    rw [List.foldl_cons, ih, validTargets_cons]
    cases htt : tokenTarget A ex fn t with
    | none => simp [depStep, htt]
    | some dp =>
      by_cases hex : ex dp = true
      · simp only [hex, if_true]
        by_cases hc : acc.contains (normalizePath dp) = true
        · have hmem : normalizePath dp ∈ acc := by
            simpa [List.contains, List.elem_iff] using hc
          simp only [depStep, htt, hex, hc, Bool.not_true, Bool.and_false, if_false]
          constructor
          · intro h
            rcases h with h | h
            · exact Or.inl h
            · exact Or.inr (List.mem_cons_of_mem _ h)
          · intro h
            rcases h with h | h
            · exact Or.inl h
            · rcases List.mem_cons.mp h with h | h
              · exact Or.inl (h ▸ hmem)
              · exact Or.inr h
        · simp only [depStep, htt, hex, hc, Bool.not_false, Bool.and_true, if_true,
            List.mem_append, List.mem_singleton, List.mem_cons]
          tauto
      · simp [depStep, htt, hex]

/-- The dependency fold preserves freedom from duplicates (set semantics). -/
lemma collectFold_nodup (A : List Alias) (ex : ExistsFn) (fn : String) :
    ∀ (ts : List PugToken) (acc : List String), acc.Nodup →
      (ts.foldl (depStep A ex fn) acc).Nodup := by
  intro ts
  induction ts with
  | nil => intro acc h; simpa
  | cons t ts ih =>
    intro acc h
    rw [List.foldl_cons]
    apply ih
    cases htt : tokenTarget A ex fn t with
    | none => simpa [depStep, htt]
    | some dp =>
      by_cases hex : ex dp = true
      · by_cases hc : acc.contains (normalizePath dp) = true
        · have hmem : normalizePath dp ∈ acc := by
            simpa [List.contains, List.elem_iff] using hc
          simpa [depStep, htt, hex, hc, hmem]
        · have hnm : normalizePath dp ∉ acc := by
            simpa [List.contains, List.elem_iff] using hc
          simp only [depStep, htt, hex, hc, Bool.not_false, Bool.and_true, if_true]
          rw [← List.concat_eq_append]
          exact h.concat hnm
      · simpa [depStep, htt, hex]

/-- C7: for one render, the dependency set is duplicate-free and holds
exactly the resolved `include`/`extends` targets that exist on disk
(normalized), so its size equals the number of distinct valid targets; a
token whose resolved target does not exist leaves the set unchanged; and
when every existing path is absolute (a POSIX file system of absolute
paths), every recorded dependency is absolute. The set is a pure function
of this render's inputs alone — each call folds from the fresh empty set
created in `renderPug`. -/
theorem c7_theorem (A : List Alias) (ex : ExistsFn) (fn : String) (tokens : List PugToken)
    (habs : ∀ q, ex q = true → strStartsWith q "/" = true) :
    (collectDeps A ex fn tokens).Nodup ∧
    (∀ d, d ∈ collectDeps A ex fn tokens ↔ d ∈ validTargets A ex fn tokens) ∧
    (collectDeps A ex fn tokens).length = (validTargets A ex fn tokens).toFinset.card ∧
    (∀ p, ex (pugAliasResolver A ex p (some fn)) = false →
      collectDeps A ex fn (tokens ++ [{ type := "include", filePath := some p }]) =
        collectDeps A ex fn tokens) ∧
    (∀ d, d ∈ collectDeps A ex fn tokens → strStartsWith d "/" = true) := by
  have hnodup : (collectDeps A ex fn tokens).Nodup :=
    collectFold_nodup A ex fn tokens [] (by simp)
  have hmem : ∀ d, d ∈ collectDeps A ex fn tokens ↔ d ∈ validTargets A ex fn tokens := by
    intro d
    have := collectFold_mem A ex fn tokens [] d
    simpa [collectDeps] using this
  refine ⟨hnodup, hmem, ?_, ?_, ?_⟩
  · have hset : (collectDeps A ex fn tokens).toFinset =
        (validTargets A ex fn tokens).toFinset := by
      ext d
      simp only [List.mem_toFinset]
      exact hmem d
    rw [← List.toFinset_card_of_nodup hnodup, hset]
  · intro p hp
    simp only [collectDeps, List.foldl_append, List.foldl_cons, List.foldl_nil]
    simp [depStep, tokenTarget, hp]
  · intro d hd
    have hv := (hmem d).mp hd
    simp only [validTargets, List.mem_map, List.mem_filter] at hv
    obtain ⟨d', ⟨hd1, hd2⟩, hd3⟩ := hv
    have hs : strStartsWith d' "/" = true := habs d' hd2
    rw [← hd3]
    simpa [normalizePath] using hs

/-- Rendered template of the C7 witness. -/
def c7Fn : String := "/proj/pages/a.pug"

/-- Disk of the C7 witness: only `/proj/inc/hdr.pug` exists. -/
def c7Ex : ExistsFn := fun s => s == "/proj/inc/hdr.pug"

/-- Token stream of the C7 witness: the same valid target referenced by an
`include` and an `extends`, a non-reference token, an `include` without a
file path, and a reference that resolves to a missing path. -/
def c7Tokens : List PugToken :=
  [{ type := "include", filePath := some "../inc/hdr" },
   { type := "extends", filePath := some "../inc/hdr" },
   { type := "text", filePath := some "ignored" },
   { type := "include", filePath := none },
   { type := "include", filePath := some "../inc/other" }]

/-- C7 witness: for the concrete token stream with one distinct valid
target, the dependency set is duplicate-free with size equal to the
distinct-target count, the missing-target token is skipped, and the
recorded dependency is absolute. -/
theorem c7_witness :
    (collectDeps [] c7Ex c7Fn c7Tokens).Nodup ∧
    ("/proj/inc/hdr.pug" ∈ collectDeps [] c7Ex c7Fn c7Tokens ↔
      "/proj/inc/hdr.pug" ∈ validTargets [] c7Ex c7Fn c7Tokens) ∧
    (collectDeps [] c7Ex c7Fn c7Tokens).length =
      (validTargets [] c7Ex c7Fn c7Tokens).toFinset.card ∧
    collectDeps [] c7Ex c7Fn
        (c7Tokens ++ [{ type := "include", filePath := some "zzz" }]) =
      collectDeps [] c7Ex c7Fn c7Tokens ∧
    ("/proj/inc/hdr.pug" ∈ collectDeps [] c7Ex c7Fn c7Tokens →
      strStartsWith "/proj/inc/hdr.pug" "/" = true) := by
  have h := c7_theorem [] c7Ex c7Fn c7Tokens (fun q hq => by
    have hq' : q = "/proj/inc/hdr.pug" := by simpa [c7Ex] using hq
    subst hq'
    decide)
  exact ⟨h.1, h.2.1 _, h.2.2.1, h.2.2.2.1 "zzz" (by decide), fun hm => h.2.2.2.2 _ hm⟩


